import Mathlib

/-!
Shallow embedding of `src/Tools/data_func.py` (RNNFlow event-to-tensor
utilities), together with a verification of the specified properties of the
rasterization engine, hot-pixel filter, temporal indexer and stream normalizer.

Modelling conventions:
* Real (numpy float) values are modelled by `ℚ`; float rounding is out of scope.
* numpy 1-D arrays are modelled by lists; dense grids by total functions from an
  index tuple to `ℚ` (cells outside the requested shape are never written and
  stay `0`; out-of-range writes are undefined behaviour in the source and the
  claims only use in-range coordinates).
* numpy fancy-index assignment `img[idx] = ws` writes the samples in traversal
  order, so coincident indices are resolved last-write-wins.  Fancy-index
  `img[idx] += ws` is a *buffered* gather-add-scatter: all reads of `img` happen
  before any write, hence coincident indices do not accumulate.  Both are
  modelled exactly below (`npFancySet`, `npFancyAdd`).
* Fallible numpy operations (indexing an array with a float index, reading an
  unassigned Python local) are modelled in `Except String`.
-/

/-- Truncation toward zero: numpy `astype(int)` and Python `int(...)`. -/
def npTrunc (q : ℚ) : ℤ := if 0 ≤ q then ⌊q⌋ else ⌈q⌉

/-- numpy `np.round`: round half to even, otherwise to the nearest integer. -/
def npRound (q : ℚ) : ℚ :=
  if q - ⌊q⌋ = 1/2 then (if Even ⌊q⌋ then (⌊q⌋ : ℚ) else (⌊q⌋ : ℚ) + 1)
  else ((round q : ℤ) : ℚ)

/-- Overwrite one cell of a dense grid. -/
def writeCellG {ι : Type} [DecidableEq ι] (img : ι → ℚ) (i : ι) (v : ℚ) : ι → ℚ :=
  fun j => if j = i then v else img j

/-- Sequential scatter of `(index, value)` samples into a grid: numpy
fancy-index assignment; coincident indices are overwritten in traversal order
(last write wins). -/
def scatterG {ι : Type} [DecidableEq ι] (img : ι → ℚ) (pts : List (ι × ℚ)) : ι → ℚ :=
  pts.foldl (fun m p => writeCellG m p.1 p.2) img

/-- numpy `img[idx] = ws` (replace mode). -/
def npFancySet {ι : Type} [DecidableEq ι] (img : ι → ℚ) (idx : List ι) (ws : List ℚ) :
    ι → ℚ :=
  scatterG img (idx.zip ws)

/-- numpy `img[idx] += ws`: buffered gather-add-scatter.  All cell values are
gathered from `img` first, the weights are added, and the results are scattered
back with last-write-wins; duplicated indices therefore do not accumulate. -/
def npFancyAdd {ι : Type} [DecidableEq ι] (img : ι → ℚ) (idx : List ι) (ws : List ℚ) :
    ι → ℚ :=
  scatterG img (idx.zip ((idx.map img).zipWith (· + ·) ws))

/-- `ev_to_2Dmap(xs, ys, ws, size, accumulate)`: scatter weights at `(y, x)`
into a fresh zero grid.  The grid is a total function; the `size` argument of
the source only fixes which cells are in range. -/
def ev_to_2Dmap (xs ys : List ℕ) (ws : List ℚ) (accumulate : Bool) : ℕ × ℕ → ℚ :=
  let img : ℕ × ℕ → ℚ := fun _ => 0
  if accumulate then npFancyAdd img (ys.zip xs) ws else npFancySet img (ys.zip xs) ws

/-- `ev_to_3Dmap(xs, ys, ts, ws, size, accumulate)`: scatter weights at
`(ts.astype(int), y, x)` into a fresh zero rank-3 grid. -/
def ev_to_3Dmap (xs ys : List ℕ) (ts ws : List ℚ) (accumulate : Bool) : ℤ × ℕ × ℕ → ℚ :=
  let img : ℤ × ℕ × ℕ → ℚ := fun _ => 0
  let idx := (ts.map npTrunc).zip (ys.zip xs)
  if accumulate then npFancyAdd img idx ws else npFancySet img idx ws

/-- `ev_to_channels(xs, ys, ps, size)`: stack of the positive-polarity map
(weights `ps * (ps > 0)`) and negative-polarity map (weights `-ps * (ps < 0)`);
the first argument selects the channel of `np.stack`. -/
def ev_to_channels (xs ys : List ℕ) (ps : List ℚ) : ℕ → ℕ × ℕ → ℚ :=
  fun c =>
    if c = 0 then ev_to_2Dmap xs ys (ps.map (fun p => p * (if 0 < p then 1 else 0))) true
    else if c = 1 then
      ev_to_2Dmap xs ys (ps.map (fun p => -(p * (if p < 0 then 1 else 0)))) true
    else fun _ => 0

/-- `ev_to_voxel(xs, ys, ts, ps, num_bins, size, round_ts)`: rescale the
normalized timestamps by `num_bins - 1`, optionally round them, and fill each
bin `b < num_bins` with the 2D accumulation of
`ps * clip(1 - |ts - b|, min 0)`. -/
def ev_to_voxel (xs ys : List ℕ) (ts ps : List ℚ) (num_bins : ℕ) (round_ts : Bool) :
    ℕ → ℕ × ℕ → ℚ :=
  let ts1 := ts.map (fun t => t * ((num_bins : ℚ) - 1))
  let ts2 := if round_ts then ts1.map npRound else ts1
  fun b =>
    if b < num_bins then
      ev_to_2Dmap xs ys
        ((ps.zip ts2).map (fun pt => pt.1 * max 0 (1 - |pt.2 - (b : ℚ)|))) true
    else fun _ => 0

/-- `ev_to_timesurface(xs, ys, ts, ps, num_bins, size)`: rescale timestamps to
`ts / ts[-1] * num_bins`, clamp values exactly equal to `num_bins` into the last
bin, accumulate a timestamp-sum grid and a count grid over `(bin, y, x)`, and
divide pointwise by `count + 1e-9`. -/
def ev_to_timesurface (xs ys : List ℕ) (ts ps : List ℚ) (num_bins : ℕ) :
    ℤ × ℕ × ℕ → ℚ :=
  let tl := ts.getLastD 0
  let tbins := ts.map (fun t => t / tl * (num_bins : ℚ))
  let tbins := tbins.map (fun t => if t = (num_bins : ℚ) then (num_bins : ℚ) - 1 else t)
  let timg := ev_to_3Dmap xs ys tbins ts true
  let cimg := ev_to_3Dmap xs ys tbins (ps.map (fun _ => 1)) true
  fun cell => timg cell / (cimg cell + 1/1000000000)

/-- A numpy scalar used as an array subscript: either integer-typed or
float-typed (`np.divide` always produces a float). -/
inductive NpIdx : Type
  | int : ℤ → NpIdx
  | float : ℚ → NpIdx

/-- Read `arr[(r, c)]` on an `(H, W)` numpy array: float-typed subscripts raise
`IndexError` whatever their value; integer subscripts support negative
wrap-around and are bounds-checked. -/
def npGet2 (H W : ℕ) (arr : ℕ × ℕ → ℚ) : NpIdx → NpIdx → Except String ℚ
  | .int r, .int c =>
      let r := if r < 0 then r + (H : ℤ) else r
      let c := if c < 0 then c + (W : ℤ) else c
      if 0 ≤ r ∧ r < (H : ℤ) ∧ 0 ≤ c ∧ c < (W : ℤ) then .ok (arr (r.toNat, c.toNat))
      else .error "IndexError: index out of bounds"
  | _, _ => .error "IndexError: only integers and integer or boolean arrays are valid indices"

/-- Write `arr[(r, c)] = v` on an `(H, W)` numpy array, with the same subscript
typing rules as `npGet2`. -/
def npSet2 (H W : ℕ) (arr : ℕ × ℕ → ℚ) (v : ℚ) : NpIdx → NpIdx → Except String (ℕ × ℕ → ℚ)
  | .int r, .int c =>
      let r := if r < 0 then r + (H : ℤ) else r
      let c := if c < 0 then c + (W : ℤ) else c
      if 0 ≤ r ∧ r < (H : ℤ) ∧ 0 ≤ c ∧ c < (W : ℤ) then
        .ok (writeCellG arr (r.toNat, c.toNat) v)
      else .error "IndexError: index out of bounds"
  | _, _ => .error "IndexError: only integers and integer or boolean arrays are valid indices"

/-- `np.argmax` of an `(H, W)` array: flat row-major index of the first maximal
entry (the source only calls it on nonempty arrays). -/
def argmaxFlat (H W : ℕ) (arr : ℕ × ℕ → ℚ) : ℕ :=
  (List.range (H * W)).foldl
    (fun best k => if arr (k / W, k % W) > arr (best / W, best % W) then k else best) 0

/-- The `for i in range(max_px)` loop of `get_hot_event_mask`.  Each iteration
computes the flat argmax, unflattens it as
`(np.divide(argmax, W), argmax % W)` — note that `np.divide` is true division
and yields a float-typed row subscript — reads the rate there, and either zeroes
rate and mask at that subscript and continues, or stops.  Returns
`(mask, event_rate)`; the source mutates `event_rate` in place. -/
def hotPixelLoop (H W : ℕ) (max_rate : ℚ) :
    ℕ → (ℕ × ℕ → ℚ) → (ℕ × ℕ → ℚ) → Except String ((ℕ × ℕ → ℚ) × (ℕ × ℕ → ℚ))
  | 0, event_rate, mask => .ok (mask, event_rate)
  | (i + 1), event_rate, mask => do
      let am := argmaxFlat H W event_rate
      let row : NpIdx := .float ((am : ℚ) / (W : ℚ))
      let col : NpIdx := .int ((am : ℤ) % (W : ℤ))
      let v ← npGet2 H W event_rate row col
      if v > max_rate then do
        let event_rate ← npSet2 H W event_rate 0 row col
        let mask ← npSet2 H W mask 0 row col
        hotPixelLoop H W max_rate i event_rate mask
      else
        .ok (mask, event_rate)

/-- `get_hot_event_mask(event_rate, idx, max_px, min_obvs, max_rate)` on an
`(H, W)` rate map.  Returns the mask together with the final state of the
caller-owned rate map (mutated in place in the source). -/
def get_hot_event_mask (event_rate : ℕ × ℕ → ℚ) (H W : ℕ) (idx : ℕ)
    (max_px min_obvs : ℕ) (max_rate : ℚ) :
    Except String ((ℕ × ℕ → ℚ) × (ℕ × ℕ → ℚ)) :=
  let mask : ℕ × ℕ → ℚ := fun _ => 1
  if idx > min_obvs then hotPixelLoop H W max_rate max_px event_rate mask
  else .ok (mask, event_rate)

/-- `event_formatting(xs, ys, ts, ps)`: cast coordinates to integers
(truncation), remap polarities by `2p - 1` when `min(ps) == 0`, and rescale
timestamps by `(t - ts[0]) / (ts[-1] - ts[0])`.  The float casts of `ts` and
`ps` are identities in the rational model. -/
def event_formatting (xs ys ts ps : List ℚ) :
    List ℤ × List ℤ × List ℚ × List ℚ :=
  let xs1 := xs.map npTrunc
  let ys1 := ys.map npTrunc
  let ps1 := if ps.min? = some 0 then ps.map (fun p => 2 * p - 1) else ps
  let t0 := ts.headD 0
  let tl := ts.getLastD 0
  let ts1 := ts.map (fun t => (t - t0) / (tl - t0))
  (xs1, ys1, ts1, ps1)

/-- `binary_search_array(array, x, left, right, side)`.  The source defaults are
`left = 0`, `right = len(array) - 1`, `side = "left"`; note that the recursive
calls pass only `left` and `right`, so `side` reverts to its default `"left"`
below the top level.  Python `//` is floor division, as is `Int` division
here. -/
def binary_search_array (array : List ℚ) (x : ℚ) (left right : ℤ) (side : String) : ℤ :=
  let mid := left + (right - left) / 2
  if _h : left > right then (if side = "left" then left else right)
  else if _h2 : array.getD mid.toNat 0 = x then mid
  else if _h3 : x < array.getD mid.toNat 0 then
    binary_search_array array x left (mid - 1) "left"
  else
    binary_search_array array x (mid + 1) right "left"
termination_by (right + 1 - left).toNat
decreasing_by
  · omega
  · omega

/-- Reading a Python local variable: `none` models a variable that has not been
assigned yet in the current function body, whose read raises
`UnboundLocalError`. -/
def readLocal (v : Option ℤ) : Except String ℤ :=
  match v with
  | none => .error "UnboundLocalError: local variable referenced before assignment"
  | some z => .ok z

/-- The Python locals `event_idx0` and `event_idx1` of `delta_time` at the point
where line 136 reads them: both are assigned only later in the body, so both are
still unbound. -/
def deltaTimeLocals : Option ℤ × Option ℤ := (none, none)

/-- `delta_time(ts, window)`: computes `floor_row`, `ceil_row` and the two
fractional offsets, then evaluates `delta_idx = event_idx1 - event_idx0` where
both names are read before any assignment to them. -/
def delta_time (ts window : ℚ) : Except String (ℤ × ℤ) := do
  let floor_row : ℤ := ⌊ts⌋
  let ceil_row : ℤ := ⌈ts + window⌉
  let floor_row : ℤ :=
    if ceil_row - floor_row > 1 then floor_row + (ceil_row - floor_row - 1) else floor_row
  let idx0_change : ℚ := ts - (floor_row : ℚ)
  let idx1_change : ℚ := ts + window - (floor_row : ℚ)
  let event_idx1 ← readLocal deltaTimeLocals.2
  let event_idx0 ← readLocal deltaTimeLocals.1
  let delta_idx : ℤ := event_idx1 - event_idx0
  let event_idx1 : ℤ := event_idx0 + npTrunc (idx1_change * (delta_idx : ℚ))
  let event_idx0 : ℤ := event_idx0 + npTrunc (idx0_change * (delta_idx : ℚ))
  return (event_idx0, event_idx1)

/-- Sum of the in-range cells of an `(H, W)` grid. -/
def gridSum (H W : ℕ) (img : ℕ × ℕ → ℚ) : ℚ :=
  ∑ p ∈ Finset.range H ×ˢ Finset.range W, img p

/-! ### Generic facts about the scatter primitive -/

theorem scatterG_cons {ι : Type} [DecidableEq ι] (img : ι → ℚ) (p : ι × ℚ)
    (pts : List (ι × ℚ)) :
    scatterG img (p :: pts) = scatterG (writeCellG img p.1 p.2) pts := rfl

theorem scatterG_eq_of_not_mem {ι : Type} [DecidableEq ι] (pts : List (ι × ℚ)) :
    ∀ (img : ι → ℚ) (i : ι), i ∉ pts.map Prod.fst → scatterG img pts i = img i := by
  induction pts with
  | nil => intro img i _; rfl
  | cons p pts ih =>
      intro img i h
      simp only [List.map_cons, List.mem_cons, not_or] at h
      rw [scatterG_cons, ih _ i h.2]
      unfold writeCellG
      rw [if_neg h.1]

theorem scatterG_eq_of_mem {ι : Type} [DecidableEq ι] (pts : List (ι × ℚ)) :
    ∀ (img : ι → ℚ) (i : ι) (w : ℚ), (pts.map Prod.fst).Nodup → (i, w) ∈ pts →
      scatterG img pts i = w := by
  induction pts with
  | nil => intro img i w _ hm; cases hm
  | cons p pts ih =>
      intro img i w hnd hm
      simp only [List.map_cons, List.nodup_cons] at hnd
      rw [scatterG_cons]
      rcases List.mem_cons.mp hm with he | hm2
      · have hkey : i ∉ pts.map Prod.fst := by rw [← he] at hnd; exact hnd.1
        rw [scatterG_eq_of_not_mem pts _ i hkey]
        unfold writeCellG
        rw [← he, if_pos rfl]
      · exact ih _ i w hnd.2 hm2

theorem scatterG_nonneg {ι : Type} [DecidableEq ι] (pts : List (ι × ℚ)) :
    ∀ img : ι → ℚ, (∀ j, 0 ≤ img j) → (∀ p ∈ pts, 0 ≤ p.2) →
      ∀ j, 0 ≤ scatterG img pts j := by
  induction pts with
  | nil => intro img h _ j; exact h j
  | cons p pts ih =>
      intro img himg hw j
      rw [scatterG_cons]
      apply ih
      · intro j'
        unfold writeCellG
        split
        · exact hw p (List.mem_cons_self _ _)
        · exact himg j'
      · intro q hq
        exact hw q (List.mem_cons_of_mem _ hq)

theorem writeCellG_eq_update {ι : Type} [DecidableEq ι] (img : ι → ℚ) (i : ι) (v : ℚ) :
    writeCellG img i v = Function.update img i v := by
  funext j
  rw [Function.update_apply]
  rfl

theorem gridSum_writeCellG (H W : ℕ) (img : ℕ × ℕ → ℚ) (q : ℕ × ℕ) (v : ℚ)
    (hq : q.1 < H ∧ q.2 < W) :
    gridSum H W (writeCellG img q v) = gridSum H W img - img q + v := by
  have hmem : q ∈ Finset.range H ×ˢ Finset.range W := by
    rw [Finset.mem_product, Finset.mem_range, Finset.mem_range]
    exact hq
  unfold gridSum
  rw [writeCellG_eq_update, Finset.sum_update_of_mem hmem,
    Finset.sdiff_singleton_eq_erase, Finset.sum_erase_eq_sub hmem]
  ring

theorem gridSum_scatterG (H W : ℕ) (pts : List ((ℕ × ℕ) × ℚ)) :
    ∀ img : ℕ × ℕ → ℚ, (pts.map Prod.fst).Nodup →
      (∀ p ∈ pts, p.1.1 < H ∧ p.1.2 < W) →
      (∀ p ∈ pts, img p.1 = 0) →
      gridSum H W (scatterG img pts) = gridSum H W img + (pts.map Prod.snd).sum := by
  induction pts with
  | nil => intro img _ _ _; simp [scatterG]
  | cons p pts ih =>
      intro img hnd hrange hzero
      simp only [List.map_cons, List.nodup_cons] at hnd
      rw [scatterG_cons,
        ih _ hnd.2 (fun q hq => hrange q (List.mem_cons_of_mem _ hq)) ?_,
        gridSum_writeCellG H W img p.1 p.2 (hrange p (List.mem_cons_self _ _)),
        hzero p (List.mem_cons_self _ _)]
      · simp only [List.map_cons, List.sum_cons]
        ring
      · intro q hq
        unfold writeCellG
        rw [if_neg]
        · exact hzero q (List.mem_cons_of_mem _ hq)
        · intro he
          exact hnd.1 (he ▸ List.mem_map_of_mem Prod.fst hq)

theorem npFancyAdd_zero {ι : Type} [DecidableEq ι] (idx : List ι) :
    ∀ ws : List ℚ, idx.length = ws.length →
      npFancyAdd (fun _ => (0 : ℚ)) idx ws = npFancySet (fun _ => (0 : ℚ)) idx ws := by
  unfold npFancyAdd npFancySet
  suffices h : ∀ ws : List ℚ, idx.length = ws.length →
      List.zipWith (· + ·) (idx.map (fun _ => (0 : ℚ))) ws = ws by
    intro ws hl
    rw [h ws hl]
  induction idx with
  | nil =>
      intro ws hl
      cases ws with
      | nil => rfl
      | cons w ws => simp at hl
  | cons i idx ih =>
      intro ws hl
      cases ws with
      | nil => simp at hl
      | cons w ws =>
          simp only [List.map_cons, List.zipWith_cons_cons, zero_add]
          rw [ih ws (by simpa using hl)]

theorem ev_to_2Dmap_true_eq_scatter (xs ys : List ℕ) (ws : List ℚ)
    (h1 : ys.length = xs.length) (h2 : ws.length = xs.length) :
    ev_to_2Dmap xs ys ws true = scatterG (fun _ => 0) ((ys.zip xs).zip ws) := by
  unfold ev_to_2Dmap
  rw [if_pos rfl, npFancyAdd_zero _ _ (by simp [List.length_zip, h1, h2])]
  rfl

/-! ### Claim theorems -/

/-- C1 (code bug): for two events written at the same in-range coordinate with
weights `w1 = 1` then `w2 = 2`, the source's accumulate mode does *not* yield
`w1 + w2`: the fancy-index `+=` is buffered, so both modes yield `w2` (last
write wins).  The claim's accumulate clause is contradicted at this input. -/
theorem c1_scatter_duplicate_last_write :
    ev_to_2Dmap [0, 0] [0, 0] [1, 2] true (0, 0) = 2 ∧
    ev_to_2Dmap [0, 0] [0, 0] [1, 2] false (0, 0) = 2 ∧
    ev_to_2Dmap [0, 0] [0, 0] [1, 2] true (0, 0) ≠ 1 + 2 := by
  refine ⟨?_, ?_, ?_⟩ <;>
    norm_num [ev_to_2Dmap, npFancyAdd, npFancySet, scatterG, writeCellG]

/-- C3 (code bug): whenever the hot-pixel filter is active (`idx > min_obvs`)
and inspects at least one candidate, the row subscript computed with
`np.divide` is float-typed, so the very first rate-map access raises
`IndexError` and the greedy suppression never happens; shown here on a 1×1 rate
map holding `1.0` with `idx = 6 > min_obvs = 5` and `max_rate = 4/5`. -/
theorem c3_hot_pixel_float_index_error :
    get_hot_event_mask (fun _ => 1) 1 1 6 1 5 (4/5) =
      Except.error
        "IndexError: only integers and integer or boolean arrays are valid indices" := rfl

/-- C5: `delta_time` reads the locals `event_idx0` and `event_idx1` before any
assignment to them, so for every input pair it fails with an unbound-variable
error and never returns a pair of indices. -/
theorem c5_delta_time_unbound (ts window : ℚ) :
    delta_time ts window =
      Except.error "UnboundLocalError: local variable referenced before assignment" := rfl

/-- C9: whenever `idx ≤ min_obvs`, `get_hot_event_mask` returns the all-ones
mask and leaves the caller-owned rate map unmodified (the mutating loop is
entered only when `idx > min_obvs`). -/
theorem c9_hot_mask_inactive (event_rate : ℕ × ℕ → ℚ) (H W idx max_px min_obvs : ℕ)
    (max_rate : ℚ) (h : idx ≤ min_obvs) :
    get_hot_event_mask event_rate H W idx max_px min_obvs max_rate =
      Except.ok (fun _ => 1, event_rate) := by
  unfold get_hot_event_mask
  rw [if_neg (by omega)]

theorem c9_hot_mask_inactive_witness :
    (3 : ℕ) ≤ 5 ∧
      get_hot_event_mask (fun _ => 1) 2 2 3 100 5 (4/5) =
        Except.ok (fun _ => 1, fun _ => 1) :=
  ⟨by norm_num, c9_hot_mask_inactive (fun _ => 1) 2 2 3 100 5 (4/5) (by norm_num)⟩

/-- C10: invoking a rasterizer on an empty event stream returns the all-zero
grid of the requested shape rather than failing: `ev_to_2Dmap`, the two
channels of `ev_to_channels`, and every bin of `ev_to_voxel` are identically
zero. -/
theorem c10_empty_stream_zero (accumulate : Bool) (cell : ℕ × ℕ) (c : ℕ)
    (num_bins : ℕ) (round_ts : Bool) (b : ℕ) :
    ev_to_2Dmap [] [] [] accumulate cell = 0 ∧
    ev_to_channels [] [] [] c cell = 0 ∧
    ev_to_voxel [] [] [] [] num_bins round_ts b cell = 0 := by
  refine ⟨by cases accumulate <;> rfl, ?_, ?_⟩
  · unfold ev_to_channels
    split
    · rfl
    · split
      · rfl
      · rfl
  · unfold ev_to_voxel
    simp only [List.map_nil]
    split
    · rfl
    · rfl

theorem ev_to_2Dmap_single (x y : ℕ) (w : ℚ) : ev_to_2Dmap [x] [y] [w] true (y, x) = w := by
  norm_num [ev_to_2Dmap, npFancyAdd, scatterG, writeCellG]

/-- C4: for a single event with normalized timestamp `t`, polarity `p` and
`round_ts = False`, writing `T = t * (num_bins - 1)` for the rescaled
timestamp, every bin `b < num_bins` of the voxel grid holds
`p * max 0 (1 - |T - b|)` at the event's cell; in particular when `T = b`
exactly, bin `b` holds the full polarity and every bin at distance at least 2
holds `0`, and when `T = b + 1/2`, bins `b` and `b + 1` each hold half the
polarity. -/
theorem c4_voxel_triangular_kernel (x y : ℕ) (t p : ℚ) (n b : ℕ) (hb : b < n) :
    ev_to_voxel [x] [y] [t] [p] n false b (y, x) =
      p * max 0 (1 - |t * ((n : ℚ) - 1) - (b : ℚ)|) ∧
    (t * ((n : ℚ) - 1) = (b : ℚ) →
      ev_to_voxel [x] [y] [t] [p] n false b (y, x) = p ∧
      ∀ b' : ℕ, b' < n → 2 ≤ |(b' : ℚ) - (b : ℚ)| →
        ev_to_voxel [x] [y] [t] [p] n false b' (y, x) = 0) ∧
    (t * ((n : ℚ) - 1) = (b : ℚ) + 1/2 → b + 1 < n →
      ev_to_voxel [x] [y] [t] [p] n false b (y, x) = p / 2 ∧
      ev_to_voxel [x] [y] [t] [p] n false (b + 1) (y, x) = p / 2) := by
  have key : ∀ b' : ℕ, b' < n →
      ev_to_voxel [x] [y] [t] [p] n false b' (y, x) =
        p * max 0 (1 - |t * ((n : ℚ) - 1) - (b' : ℚ)|) := by
    intro b' hb'
    unfold ev_to_voxel
    simp only [List.map_cons, List.map_nil, if_neg Bool.false_ne_true, List.zip_cons_cons,
      List.zip_nil_right, if_pos hb']
    exact ev_to_2Dmap_single x y _
  refine ⟨key b hb, fun hT => ⟨?_, ?_⟩, fun hT hb1 => ⟨?_, ?_⟩⟩
  · rw [key b hb, hT]
    simp
  · intro b' hb' hd
    rw [key b' hb', hT]
    have h2 : |(b : ℚ) - (b' : ℚ)| = |(b' : ℚ) - (b : ℚ)| := abs_sub_comm _ _
    have h0 : 1 - |(b : ℚ) - (b' : ℚ)| ≤ 0 := by rw [h2]; linarith
    rw [max_eq_left h0, mul_zero]
  · rw [key b hb, hT]
    have h1 : |(b : ℚ) + 1/2 - (b : ℚ)| = 1/2 := by norm_num
    rw [h1]
    norm_num [max_eq_right]
    ring
  · rw [key (b + 1) hb1, hT]
    push_cast
    have h1 : |(b : ℚ) + 1/2 - ((b : ℚ) + 1)| = 1/2 := by
      rw [show (b : ℚ) + 1/2 - ((b : ℚ) + 1) = -(1/2) by ring, abs_neg]
      norm_num
    rw [h1]
    norm_num [max_eq_right]
    ring

theorem c4_voxel_triangular_kernel_witness :
    (1 : ℕ) < 4 ∧ ev_to_voxel [2] [3] [1/3] [1] 4 false 1 (3, 2) = 1 := by
  refine ⟨by norm_num, ?_⟩
  have h := (c4_voxel_triangular_kernel 2 3 (1/3) 1 4 1 (by norm_num)).2.1 (by norm_num)
  simpa using h.1

/-- C6: for an event stream whose events sit at pairwise-distinct in-range
coordinates, channel 0 of `ev_to_channels` holds `p` at each event's cell when
`p > 0` (else `0`), channel 1 holds `-p` when `p < 0` (else `0`), both channels
are elementwise nonnegative, and the channel totals are the sums of the masked
positive and negative weights (so `ps = [1, -1, 1]` gives totals `2` and `1`,
see the witness). -/
theorem c6_polarity_channels (xs ys : List ℕ) (ps : List ℚ) (H W : ℕ)
    (h1 : ys.length = xs.length) (h2 : ps.length = xs.length)
    (hnd : (ys.zip xs).Nodup)
    (hrange : ∀ q ∈ ys.zip xs, q.1 < H ∧ q.2 < W) :
    (∀ i, i < xs.length →
        ev_to_channels xs ys ps 0 (ys.getD i 0, xs.getD i 0) =
          (if 0 < ps.getD i 0 then ps.getD i 0 else 0) ∧
        ev_to_channels xs ys ps 1 (ys.getD i 0, xs.getD i 0) =
          (if ps.getD i 0 < 0 then -ps.getD i 0 else 0)) ∧
    (∀ c q, 0 ≤ ev_to_channels xs ys ps c q) ∧
    gridSum H W (ev_to_channels xs ys ps 0) =
      (ps.map (fun p => p * (if 0 < p then 1 else 0))).sum ∧
    gridSum H W (ev_to_channels xs ys ps 1) =
      (ps.map (fun p => -(p * (if p < 0 then 1 else 0)))).sum := by
  have hzlen : (ys.zip xs).length = xs.length := by
    rw [List.length_zip, h1, min_self]
  -- facts shared by the two channels, for an arbitrary weight function
  have main : ∀ f : ℚ → ℚ,
      (∀ i, i < xs.length →
        ev_to_2Dmap xs ys (ps.map f) true (ys.getD i 0, xs.getD i 0) =
          f (ps.getD i 0)) ∧
      gridSum H W (ev_to_2Dmap xs ys (ps.map f) true) = (ps.map f).sum := by
    intro f
    have hwlen : (ps.map f).length = xs.length := by rw [List.length_map, h2]
    have heq := ev_to_2Dmap_true_eq_scatter xs ys (ps.map f) h1 hwlen
    have hkeys : ((ys.zip xs).zip (ps.map f)).map Prod.fst = ys.zip xs :=
      List.map_fst_zip _ _ (by rw [hzlen, hwlen])
    constructor
    · intro i hi
      rw [heq]
      apply scatterG_eq_of_mem
      · rw [hkeys]; exact hnd
      · have hiz : i < (ys.zip xs).length := by rw [hzlen]; exact hi
        have hiw : i < (ps.map f).length := by rw [hwlen]; exact hi
        have hizw : i < ((ys.zip xs).zip (ps.map f)).length := by
          rw [List.length_zip, hzlen, hwlen, min_self]; exact hi
        have hget : ((ys.zip xs).zip (ps.map f))[i] =
            ((ys.getD i 0, xs.getD i 0), f (ps.getD i 0)) := by
          rw [List.getElem_zip, List.getElem_zip, List.getElem_map]
          rw [List.getD_eq_getElem ys 0 (by omega), List.getD_eq_getElem xs 0 (by omega),
            List.getD_eq_getElem ps 0 (by omega)]
        rw [← hget]
        exact List.getElem_mem hizw
    · rw [heq, gridSum_scatterG H W _ _ ?_ ?_ (fun p _ => rfl)]
      · rw [List.map_snd_zip _ _ (by rw [hzlen, hwlen]),
          gridSum, Finset.sum_const_zero, zero_add]
      · rw [hkeys]; exact hnd
      · intro p hp
        have hp1 : p.1 ∈ ys.zip xs := by
          rw [← hkeys]; exact List.mem_map_of_mem Prod.fst hp
        exact hrange p.1 hp1
  have hch0 : ev_to_channels xs ys ps 0 =
      ev_to_2Dmap xs ys (ps.map (fun p => p * (if 0 < p then 1 else 0))) true := rfl
  have hch1 : ev_to_channels xs ys ps 1 =
      ev_to_2Dmap xs ys (ps.map (fun p => -(p * (if p < 0 then 1 else 0)))) true := rfl
  refine ⟨fun i hi => ⟨?_, ?_⟩, ?_, ?_, ?_⟩
  · rw [hch0, (main _).1 i hi]
    split <;> simp
  · rw [hch1, (main _).1 i hi]
    split <;> simp
  · intro c q
    unfold ev_to_channels
    split
    · rw [ev_to_2Dmap_true_eq_scatter xs ys _ h1 (by rw [List.length_map, h2])]
      apply scatterG_nonneg _ _ (fun _ => le_refl 0)
      intro pr hpr
      have h3 : pr.2 ∈ ps.map (fun p => p * (if 0 < p then 1 else 0)) :=
        (List.of_mem_zip hpr).2
      obtain ⟨p, _, hp2⟩ := List.mem_map.mp h3
      rw [← hp2]
      rcases lt_or_le 0 p with hp | hp
      · rw [if_pos hp, mul_one]
        linarith
      · rw [if_neg (not_lt.mpr hp), mul_zero]
    · split
      · rw [ev_to_2Dmap_true_eq_scatter xs ys _ h1 (by rw [List.length_map, h2])]
        apply scatterG_nonneg _ _ (fun _ => le_refl 0)
        intro pr hpr
        have h3 : pr.2 ∈ ps.map (fun p => -(p * (if p < 0 then 1 else 0))) :=
          (List.of_mem_zip hpr).2
        obtain ⟨p, _, hp2⟩ := List.mem_map.mp h3
        rw [← hp2]
        rcases lt_or_le p 0 with hp | hp
        · rw [if_pos hp, mul_one, neg_nonneg]
          linarith
        · rw [if_neg (not_lt.mpr hp), mul_zero, neg_zero]
      · exact le_refl 0
  · rw [hch0]; exact (main _).2
  · rw [hch1]; exact (main _).2

theorem c6_polarity_channels_witness :
    ([(0, 0), (0, 1), (1, 0)] : List (ℕ × ℕ)).Nodup ∧
    gridSum 2 2 (ev_to_channels [0, 1, 0] [0, 0, 1] [1, -1, 1] 0) = 2 ∧
    gridSum 2 2 (ev_to_channels [0, 1, 0] [0, 0, 1] [1, -1, 1] 1) = 1 := by
  have h := c6_polarity_channels [0, 1, 0] [0, 0, 1] [1, -1, 1] 2 2 rfl rfl
    (by decide) (by decide)
  refine ⟨by decide, h.2.2.1.trans ?_, h.2.2.2.trans ?_⟩ <;> norm_num

/-- C7 (code bug): two events at the same pixel whose rescaled timestamps land
in the same bin (`ts = [3, 4]`, one bin) do *not* produce
`sum-of-timestamps / (count + ε)`: the buffered fancy-index `+=` inside
`ev_to_3Dmap` keeps only the last event per cell, so the cell evaluates to
`4 / (1 + ε)` instead of the claimed `(3 + 4) / (2 + ε)`. -/
theorem c7_timesurface_duplicate_cell :
    ev_to_timesurface [0, 0] [0, 0] [3, 4] [1, 1] 1 (0, 0, 0) =
      4 / (1 + 1/1000000000) ∧
    (4 : ℚ) / (1 + 1/1000000000) ≠ (3 + 4) / (2 + 1/1000000000) := by
  constructor
  · norm_num [ev_to_timesurface, ev_to_3Dmap, npFancyAdd, npFancySet, scatterG,
      writeCellG, npTrunc, List.getLastD]
  · norm_num

theorem npTrunc_den_one (q : ℚ) (h : q.den = 1) : ((npTrunc q : ℤ) : ℚ) = q := by
  have hq : ((q.num : ℚ)) = q := by
    conv_rhs => rw [← Rat.num_div_den q]
    rw [h]
    norm_num
  unfold npTrunc
  split
  · rw [← hq, Int.floor_intCast]
  · rw [← hq, Int.ceil_intCast]

/-- C8: on a stream that is already in the normalizer's output format
(timestamps starting at `0` and ending at `1`, polarities in `{-1, 1}`,
integral coordinates), `event_formatting` returns all four sequences
numerically unchanged. -/
theorem c8_event_formatting_idempotent (xs ys ts ps : List ℚ)
    (hxs : ∀ q ∈ xs, q.den = 1) (hys : ∀ q ∈ ys, q.den = 1)
    (hts0 : ts.headD 0 = 0) (htsl : ts.getLastD 0 = 1)
    (hps : ∀ p ∈ ps, p = -1 ∨ p = 1) :
    (event_formatting xs ys ts ps).1.map (fun z : ℤ => (z : ℚ)) = xs ∧
    (event_formatting xs ys ts ps).2.1.map (fun z : ℤ => (z : ℚ)) = ys ∧
    (event_formatting xs ys ts ps).2.2.1 = ts ∧
    (event_formatting xs ys ts ps).2.2.2 = ps := by
  have hmin : ¬ ps.min? = some 0 := by
    intro h
    have h0 : (0 : ℚ) ∈ ps := List.min?_mem (fun a b => min_choice a b) h
    rcases hps 0 h0 with h1 | h1 <;> norm_num at h1
  have hcast : ∀ (l : List ℚ), (∀ q ∈ l, q.den = 1) →
      (l.map npTrunc).map (fun z : ℤ => (z : ℚ)) = l := by
    intro l hl
    rw [List.map_map]
    conv_rhs => rw [← List.map_id l]
    refine List.map_congr_left fun q hq => ?_
    simp only [Function.comp_apply, id_eq]
    exact npTrunc_den_one q (hl q hq)
  refine ⟨?_, ?_, ?_, ?_⟩
  · simp only [event_formatting]
    exact hcast xs hxs
  · simp only [event_formatting]
    exact hcast ys hys
  · simp only [event_formatting]
    rw [hts0, htsl]
    conv_rhs => rw [← List.map_id ts]
    refine List.map_congr_left fun t _ => ?_
    norm_num
  · simp only [event_formatting]
    rw [if_neg hmin]

theorem c8_event_formatting_idempotent_witness :
    ([(0 : ℚ), 1].headD 0 = 0) ∧
    (event_formatting [1, 2] [0, 3] [0, 1] [1, -1]).1.map (fun z : ℤ => (z : ℚ)) = [1, 2] ∧
    (event_formatting [1, 2] [0, 3] [0, 1] [1, -1]).2.2.1 = [0, 1] ∧
    (event_formatting [1, 2] [0, 3] [0, 1] [1, -1]).2.2.2 = [1, -1] := by
  have h := c8_event_formatting_idempotent [1, 2] [0, 3] [0, 1] [1, -1]
    (by decide) (by decide) (by decide) (by decide) (by decide)
  exact ⟨by decide, h.1, h.2.2.1, h.2.2.2⟩

theorem getD_le_getD_of_sorted (a : List ℚ) (hs : a.Sorted (· ≤ ·)) {i j : ℕ}
    (hij : i ≤ j) (hj : j < a.length) : a.getD i 0 ≤ a.getD j 0 := by
  rw [List.getD_eq_getElem a 0 (lt_of_le_of_lt hij hj), List.getD_eq_getElem a 0 hj]
  rcases eq_or_lt_of_le hij with h | h
  · subst h; exact le_refl _
  · exact List.Sorted.rel_get_of_lt hs (by simpa using h)

theorem binary_search_array_terminal (a : List ℚ) (x : ℚ) (left right : ℤ) (side : String)
    (h : left > right) :
    binary_search_array a x left right side = if side = "left" then left else right := by
  rw [binary_search_array.eq_def]
  simp only [dif_pos h]

theorem binary_search_array_side (a : List ℚ) (x : ℚ) (left right : ℤ) (side : String)
    (h : ¬ left > right) :
    binary_search_array a x left right side = binary_search_array a x left right "left" := by
  conv_lhs => rw [binary_search_array.eq_def]
  conv_rhs => rw [binary_search_array.eq_def]
  simp only [dif_neg h]

theorem binary_search_array_found_aux (a : List ℚ) (x : ℚ) (hs : a.Sorted (· ≤ ·)) :
    ∀ (k : ℕ) (left right : ℤ) (side : String),
      (right + 1 - left).toNat ≤ k →
      0 ≤ left → right < (a.length : ℤ) →
      (∃ i : ℕ, i < a.length ∧ left ≤ (i : ℤ) ∧ (i : ℤ) ≤ right ∧ a.getD i 0 = x) →
      0 ≤ binary_search_array a x left right side ∧
      binary_search_array a x left right side < (a.length : ℤ) ∧
      a.getD (binary_search_array a x left right side).toNat 0 = x := by
  intro k
  induction k with
  | zero =>
      intro left right side hk _ _ hex
      obtain ⟨i, _, h3, h4, _⟩ := hex
      omega
  | succ k ih =>
      intro left right side hk hl hr hex
      obtain ⟨i, hi, hil, hir, hix⟩ := hex
      have hlr : ¬ left > right := by omega
      rw [binary_search_array.eq_def]
      simp only [dif_neg hlr]
      set m := left + (right - left) / 2 with hmdef
      have hmb : left ≤ m ∧ m ≤ right := by constructor <;> omega
      by_cases h2 : a.getD m.toNat 0 = x
      · simp only [dif_pos h2]
        exact ⟨by omega, by omega, h2⟩
      · simp only [dif_neg h2]
        by_cases h3 : x < a.getD m.toNat 0
        · simp only [dif_pos h3]
          apply ih left (m - 1) "left" (by omega) hl (by omega)
          refine ⟨i, hi, hil, ?_, hix⟩
          by_contra hcon
          push_neg at hcon
          have him : m.toNat ≤ i := by omega
          have hle := getD_le_getD_of_sorted a hs him hi
          rw [hix] at hle
          exact absurd h3 (not_lt.mpr hle)
        · simp only [dif_neg h3]
          have h4 : a.getD m.toNat 0 < x := lt_of_le_of_ne (not_lt.mp h3) h2
          apply ih (m + 1) right "left" (by omega) (by omega) hr
          refine ⟨i, hi, ?_, hir, hix⟩
          by_contra hcon
          push_neg at hcon
          have him : i ≤ m.toNat := by omega
          have hle := getD_le_getD_of_sorted a hs him (by omega : m.toNat < a.length)
          rw [hix] at hle
          exact absurd h4 (not_lt.mpr hle)

theorem binary_search_array_absent_aux (a : List ℚ) (x : ℚ) (hs : a.Sorted (· ≤ ·))
    (hne : ∀ i : ℕ, i < a.length → a.getD i 0 ≠ x) :
    ∀ (k : ℕ) (left right : ℤ),
      (right + 1 - left).toNat ≤ k →
      0 ≤ left → left ≤ (a.length : ℤ) → right < (a.length : ℤ) →
      (∀ i : ℕ, i < a.length → (i : ℤ) < left → a.getD i 0 < x) →
      (∀ i : ℕ, i < a.length → right < (i : ℤ) → x < a.getD i 0) →
      0 ≤ binary_search_array a x left right "left" ∧
      binary_search_array a x left right "left" ≤ (a.length : ℤ) ∧
      (∀ i : ℕ, i < a.length →
        ((i : ℤ) < binary_search_array a x left right "left" ↔ a.getD i 0 < x)) := by
  have terminal : ∀ left right : ℤ, left > right →
      0 ≤ left → left ≤ (a.length : ℤ) →
      (∀ i : ℕ, i < a.length → (i : ℤ) < left → a.getD i 0 < x) →
      (∀ i : ℕ, i < a.length → right < (i : ℤ) → x < a.getD i 0) →
      0 ≤ binary_search_array a x left right "left" ∧
      binary_search_array a x left right "left" ≤ (a.length : ℤ) ∧
      (∀ i : ℕ, i < a.length →
        ((i : ℤ) < binary_search_array a x left right "left" ↔ a.getD i 0 < x)) := by
    intro left right hlr hl0 hln hlo hhi
    rw [binary_search_array_terminal a x left right "left" hlr, if_pos rfl]
    refine ⟨hl0, hln, fun i hi => ⟨hlo i hi, fun hlt => ?_⟩⟩
    by_contra hcon
    push_neg at hcon
    have hgt := hhi i hi (by omega)
    exact absurd hlt (not_lt.mpr (le_of_lt hgt))
  intro k
  induction k with
  | zero =>
      intro left right hk hl0 hln hr hlo hhi
      exact terminal left right (by omega) hl0 hln hlo hhi
  | succ k ih =>
      intro left right hk hl0 hln hr hlo hhi
      by_cases hlr : left > right
      · exact terminal left right hlr hl0 hln hlo hhi
      · rw [binary_search_array.eq_def]
        simp only [dif_neg hlr]
        set m := left + (right - left) / 2 with hmdef
        have hmb : left ≤ m ∧ m ≤ right := by constructor <;> omega
        have hmn : m.toNat < a.length := by omega
        have h2 : ¬ a.getD m.toNat 0 = x := hne m.toNat hmn
        simp only [dif_neg h2]
        by_cases h3 : x < a.getD m.toNat 0
        · simp only [dif_pos h3]
          apply ih left (m - 1) (by omega) hl0 hln (by omega) hlo
          intro i hi him
          have hle := getD_le_getD_of_sorted a hs (by omega : m.toNat ≤ i) hi
          exact lt_of_lt_of_le h3 hle
        · simp only [dif_neg h3]
          have h4 : a.getD m.toNat 0 < x := lt_of_le_of_ne (not_lt.mp h3) h2
          apply ih (m + 1) right (by omega) (by omega) (by omega) hr
          · intro i hi him
            have hle := getD_le_getD_of_sorted a hs (by omega : i ≤ m.toNat) hmn
            exact lt_of_le_of_lt hle h4
          · exact hhi

/-- C2 (amended): with the source defaults `left = 0`, `right = len - 1`, for a
sorted array: if `x` occurs then the call returns an index holding `x`, for any
`side`; if `x` is absent and the array is nonempty then *both* sides return the
left insertion point — the smallest index `i` with `A[i] ≥ x`, or `len` if none
exists, characterised below by `i < result ↔ A[i] < x` — because the recursive
calls do not forward `side`; the two sides differ only on the degenerate
initial range of an empty array, where `"left"` gives `0` and any other side
gives `-1`. -/
theorem c2_binary_search_amended (a : List ℚ) (x : ℚ) (side : String)
    (hs : a.Sorted (· ≤ ·)) :
    (x ∈ a → ∃ i : ℕ, i < a.length ∧
        binary_search_array a x 0 ((a.length : ℤ) - 1) side = (i : ℤ) ∧
        a.getD i 0 = x) ∧
    (x ∉ a → a ≠ [] →
      binary_search_array a x 0 ((a.length : ℤ) - 1) side =
        binary_search_array a x 0 ((a.length : ℤ) - 1) "left" ∧
      0 ≤ binary_search_array a x 0 ((a.length : ℤ) - 1) side ∧
      binary_search_array a x 0 ((a.length : ℤ) - 1) side ≤ (a.length : ℤ) ∧
      (∀ i : ℕ, i < a.length →
        ((i : ℤ) < binary_search_array a x 0 ((a.length : ℤ) - 1) side ↔
          a.getD i 0 < x))) ∧
    (a = [] → binary_search_array a x 0 ((a.length : ℤ) - 1) side =
      (if side = "left" then 0 else -1)) := by
  refine ⟨?_, ?_, ?_⟩
  · intro hx
    obtain ⟨i, hi, hix⟩ := List.mem_iff_getElem.mp hx
    have hfound := binary_search_array_found_aux a x hs a.length 0
      ((a.length : ℤ) - 1) side (by omega) (by omega) (by omega)
      ⟨i, hi, by omega, by omega, by rw [List.getD_eq_getElem a 0 hi]; exact hix⟩
    exact ⟨(binary_search_array a x 0 ((a.length : ℤ) - 1) side).toNat,
      by omega, by omega, hfound.2.2⟩
  · intro hx hnil
    have hlen : 0 < a.length := List.length_pos.mpr hnil
    have hne : ∀ i : ℕ, i < a.length → a.getD i 0 ≠ x := by
      intro i hi heq
      rw [List.getD_eq_getElem a 0 hi] at heq
      exact hx (heq ▸ List.getElem_mem hi)
    have hside := binary_search_array_side a x 0 ((a.length : ℤ) - 1) side (by omega)
    have habs := binary_search_array_absent_aux a x hs hne a.length 0
      ((a.length : ℤ) - 1) (by omega) (by omega) (by omega) (by omega)
      (fun i hi hcon => absurd hcon (by omega))
      (fun i hi hcon => absurd hcon (by omega))
    refine ⟨hside, ?_, ?_, ?_⟩ <;> rw [hside]
    · exact habs.1
    · exact habs.2.1
    · exact habs.2.2
  · intro hnil
    subst hnil
    simpa using binary_search_array_terminal [] x 0 (-1) side (by omega)

/-- C2 counterexample: on the sorted array `[10, 20]` with absent query `15`,
`side = "right"` returns index `1`, whose entry `20` is not `≤ 15`; the claimed
largest-index-with-`A[i] ≤ x` semantics (which would give index `0`) does not
hold. -/
theorem c2_side_right_counterexample :
    binary_search_array [(10 : ℚ), 20] 15 0 1 "right" = 1 ∧
    ¬ List.getD [(10 : ℚ), 20] 1 0 ≤ 15 := by
  have s3 : binary_search_array [(10 : ℚ), 20] 15 1 0 "left" = 1 := by
    rw [binary_search_array_terminal [(10 : ℚ), 20] 15 1 0 "left" (by omega), if_pos rfl]
  have s2 : binary_search_array [(10 : ℚ), 20] 15 1 1 "left" = 1 := by
    rw [binary_search_array.eq_def]
    norm_num
    exact s3
  constructor
  · rw [binary_search_array.eq_def]
    norm_num
    exact s2
  · norm_num

theorem c2_binary_search_amended_witness :
    ([(10 : ℚ), 20].Sorted (· ≤ ·)) ∧ (15 : ℚ) ∉ [(10 : ℚ), 20] ∧
    ((0 : ℤ) <
        binary_search_array [(10 : ℚ), 20] 15 0 ((([(10 : ℚ), 20].length : ℤ)) - 1) "right" ↔
      List.getD [(10 : ℚ), 20] 0 0 < 15) := by
  have hs : ([(10 : ℚ), 20].Sorted (· ≤ ·)) := by decide
  have h := (c2_binary_search_amended [(10 : ℚ), 20] 15 "right" hs).2.1
    (by decide) (by decide)
  exact ⟨hs, by decide, h.2.2.2 0 (by norm_num)⟩
